import Mathlib

/-!
Verification of the values-merge-and-package pipeline of `entrypoint.py`
(PackageHelm). Each Python function used by the claims is embedded as an
executable Lean definition; theorems below settle the specification claims.
-/

set_option maxHeartbeats 1000000
set_option linter.unusedVariables false

/-- Turn a string literal into the list of its characters (helper for stating
concrete examples). -/
def chars (s : String) : List Char := s.data

/-- Python whitespace characters as used by `str.strip` (ASCII range). -/
def isPyWS (c : Char) : Bool :=
  c = ' ' ∨ c = '\t' ∨ c = '\n' ∨ c = '\r' ∨ c = '\x0b' ∨ c = '\x0c'

/-- Python `str.strip()` on a list of characters. -/
def pyStrip (s : List Char) : List Char :=
  ((s.dropWhile isPyWS).reverse.dropWhile isPyWS).reverse

/-!
## YAML values

`entrypoint.deep_merge_values` operates on the dynamic documents produced by
`yaml.safe_load`: mappings (Python dicts, keys unique, insertion order
preserved), sequences, scalars and null. Mappings are embedded as association
lists in insertion order; the dict invariant (no duplicate keys) becomes the
predicate `wfValue`.
-/

inductive Value where
  | null : Value
  | scalar : String → Value
  | seq : List Value → Value
  | map : List (String × Value) → Value

/-- First entry with the given key (Python dict lookup, association lists with
unique keys). -/
def findValue : List (String × Value) → String → Option Value
  | [], _ => none
  | (k, v) :: t, key => if k = key then some v else findValue t key

/-- Python `k in merged` on the association-list mapping. -/
def containsKey (es : List (String × Value)) (key : String) : Bool :=
  (findValue es key).isSome

/-- Keys are pairwise distinct (the Python dict invariant). -/
def nodupKeysB : List (String × Value) → Bool
  | [] => true
  | (k, _) :: t => !containsKey t k && nodupKeysB t

mutual

/--
`entrypoint.deep_merge_values` (src/entrypoint.py lines 145-161):
dict + dict merges recursively, every other combination returns the
override verbatim.
-/
def deep_merge_values : Value → Value → Value
  | Value.map b, Value.map o => Value.map (mergeList b o)
  | _, o => o
termination_by a b => (sizeOf b, 0)

/-- The `for k, v in override.items()` loop of `deep_merge_values`, folding the
override entries into the accumulator `dict(base)`. -/
def mergeList (b : List (String × Value)) : List (String × Value) → List (String × Value)
  | [] => b
  | (k, v) :: rest => mergeList (updateKey b k v) rest
termination_by o => (sizeOf o, 0)

/-- One loop iteration: `merged[k] = deep_merge_values(merged[k], v)` when the
key is present (replacing the value in place), `merged[k] = v` (appended at the
end) otherwise. -/
def updateKey : List (String × Value) → String → Value → List (String × Value)
  | [], k, v => [(k, v)]
  | (k1, v1) :: t, k, v =>
    if k1 = k then (k1, deep_merge_values v1 v) :: t
    else (k1, v1) :: updateKey t k v
termination_by t _ v => (sizeOf v, sizeOf t + 1)

end

mutual

/-- Well-formedness of a document: every mapping node has pairwise-distinct
keys (always true of documents produced by `yaml.safe_load`). -/
def wfValue : Value → Bool
  | Value.null => true
  | Value.scalar _ => true
  | Value.seq l => wfSeq l
  | Value.map es => nodupKeysB es && wfEntries es

def wfSeq : List Value → Bool
  | [] => true
  | v :: t => wfValue v && wfSeq t

def wfEntries : List (String × Value) → Bool
  | [] => true
  | e :: t => wfValue e.2 && wfEntries t

end

theorem findValue_sizeOf {es : List (String × Value)} {k : String} {w : Value}
    (h : findValue es k = some w) : sizeOf w < sizeOf es := by
  induction es with
  | nil => simp [findValue] at h
  | cons e t ih =>
    obtain ⟨k1, v1⟩ := e
    simp only [findValue] at h
    split at h
    · cases h
      simp only [List.cons.sizeOf_spec, Prod.mk.sizeOf_spec]
      omega
    · have := ih h
      simp only [List.cons.sizeOf_spec]
      omega

/-- Every key of `b` occurs in `a` (half of Python dict equality). -/
def keysIncluded (b a : List (String × Value)) : Bool :=
  b.all (fun e => containsKey a e.1)

mutual

/-- Python `==` on two YAML documents: mappings compare as unordered key-value
maps (insertion order irrelevant), sequences elementwise, scalars by value. -/
def vequiv : Value → Value → Bool
  | Value.null, Value.null => true
  | Value.scalar a, Value.scalar b => a = b
  | Value.seq a, Value.seq b => seqEquiv a b
  | Value.map a, Value.map b => subEquiv a b && keysIncluded b a
  | _, _ => false
termination_by x y => sizeOf x + sizeOf y
decreasing_by all_goals (simp only [Value.map.sizeOf_spec, Value.seq.sizeOf_spec]; omega)

/-- Elementwise `vequiv` on sequences of equal length. -/
def seqEquiv : List Value → List Value → Bool
  | [], [] => true
  | x :: xs, y :: ys => vequiv x y && seqEquiv xs ys
  | _, _ => false
termination_by a b => sizeOf a + sizeOf b
decreasing_by all_goals (simp only [List.cons.sizeOf_spec]; omega)

/-- Every entry of the first mapping is `vequiv` to the entry of the second
mapping at the same key. -/
def subEquiv : List (String × Value) → List (String × Value) → Bool
  | [], _ => true
  | (k, v) :: t, b =>
    (match h : findValue b k with
     | some w => vequiv v w
     | none => false) && subEquiv t b
termination_by t b => sizeOf t + sizeOf b
decreasing_by
  all_goals simp only [List.cons.sizeOf_spec, Prod.mk.sizeOf_spec]
  · have := findValue_sizeOf h
    omega
  · omega

end

/-!
## Input handling and version normalization
-/

/--
`entrypoint.ensure_v_prefix` (lines 35-39): strip the input, fail when empty,
return it with a `v` prefix ensured.
-/
def ensure_v_prefix (version : List Char) : Except String (List Char) :=
  let v := pyStrip version
  if v = [] then Except.error ("helm_version is empty")
  else if v.take 1 = ['v'] then Except.ok v
  else Except.ok ('v' :: v)

/-- The shared fallback of `entrypoint.get_input` (lines 24-27) when the
environment variable is unset or empty: error for a required input with no
default, otherwise `default or ""`. -/
def get_input_missing (dflt : Option String) (required : Bool) : Except String String :=
  if required && dflt.isNone then Except.error ("Missing required input")
  else Except.ok (dflt.getD "")

/--
`entrypoint.get_input` (lines 21-28). The environment is passed as
`val : Option String` (`os.environ.get` result).
-/
def get_input (val : Option String) (dflt : Option String) (required : Bool) :
    Except String String :=
  match val with
  | some v => if v = "" then get_input_missing dflt required else Except.ok v
  | none => get_input_missing dflt required

/-!
## Shell-style tokenization (`shlex.split`, POSIX mode)

`build_helm_package_cmd` tokenizes `package_args` with `shlex.split`. The
state machine below mirrors CPython `shlex.read_token` with `posix=True`,
`whitespace_split=True`: states are between-tokens, in-word, single-quoted,
double-quoted, escape after backslash in a word, and escape after backslash
inside double quotes. Unterminated quotes or a trailing backslash raise in
Python; here they return `none`.
-/

inductive SState where
  | stS | stW | stQ1 | stQ2 | stE | stE2

/-- `shlex` whitespace characters. -/
def isShlexWS (c : Char) : Bool := c = ' ' ∨ c = '\t' ∨ c = '\r' ∨ c = '\n'

/-- The `shlex.read_token` loop. `tok` is the current token (reversed), `acc`
the emitted tokens (reversed). -/
def shlexGo : SState → List Char → List (List Char) → List Char → Option (List (List Char))
  | SState.stS, _, acc, [] => some acc.reverse
  | SState.stW, tok, acc, [] => some (tok.reverse :: acc).reverse
  | SState.stQ1, _, _, [] => none
  | SState.stQ2, _, _, [] => none
  | SState.stE, _, _, [] => none
  | SState.stE2, _, _, [] => none
  | SState.stS, tok, acc, c :: rest =>
    if isShlexWS c then shlexGo SState.stS [] acc rest
    else if c = '\'' then shlexGo SState.stQ1 tok acc rest
    else if c = '"' then shlexGo SState.stQ2 tok acc rest
    else if c = '\\' then shlexGo SState.stE tok acc rest
    else shlexGo SState.stW (c :: tok) acc rest
  | SState.stW, tok, acc, c :: rest =>
    if isShlexWS c then shlexGo SState.stS [] (tok.reverse :: acc) rest
    else if c = '\'' then shlexGo SState.stQ1 tok acc rest
    else if c = '"' then shlexGo SState.stQ2 tok acc rest
    else if c = '\\' then shlexGo SState.stE tok acc rest
    else shlexGo SState.stW (c :: tok) acc rest
  | SState.stQ1, tok, acc, c :: rest =>
    if c = '\'' then shlexGo SState.stW tok acc rest
    else shlexGo SState.stQ1 (c :: tok) acc rest
  | SState.stQ2, tok, acc, c :: rest =>
    if c = '"' then shlexGo SState.stW tok acc rest
    else if c = '\\' then shlexGo SState.stE2 tok acc rest
    else shlexGo SState.stQ2 (c :: tok) acc rest
  | SState.stE, tok, acc, c :: rest => shlexGo SState.stW (c :: tok) acc rest
  | SState.stE2, tok, acc, c :: rest =>
    if c = '\\' ∨ c = '"' then shlexGo SState.stQ2 (c :: tok) acc rest
    else shlexGo SState.stQ2 (c :: '\\' :: tok) acc rest

/-- `shlex.split` (POSIX mode), returning `none` where Python raises. -/
def shlexSplit (s : List Char) : Option (List (List Char)) :=
  shlexGo SState.stS [] [] s

/--
`entrypoint.build_helm_package_cmd` (lines 180-201): the fixed nine tokens
followed by the shell-style tokenization of `package_args` when it is not
whitespace-only.
-/
def build_helm_package_cmd (chart_path destination helm_chart_version
    helm_chart_app_version : List Char) (package_args : List Char) :
    Option (List (List Char)) :=
  let cmd := [chars ("helm"), chars ("package"), chart_path,
    chars ("--destination"), destination,
    chars ("--version"), helm_chart_version,
    chars ("--app-version"), helm_chart_app_version]
  if pyStrip package_args = [] then some cmd
  else
    match shlexSplit package_args with
    | some extra => some (cmd ++ extra)
    | none => none

/-!
## POSIX path handling

`resolve_path` and `workspace_relpath` build on `os.path` (POSIX flavour):
`normpath`, `join`, `isabs`, `relpath`. Paths are lists of characters;
`relpath` is modelled for the in-program use where both arguments are
absolute (so `abspath` is `normpath` and the Windows-only failure branch of
`workspace_relpath` is dead).
-/

/-- Split a path on every slash (Python `path.split(sep)`). -/
def splitSlash : List Char → List (List Char)
  | [] => [[]]
  | c :: t =>
    match splitSlash t with
    | [] => [[c]]
    | h :: r => if c = '/' then [] :: h :: r else (c :: h) :: r

/-- Python `sep.join(comps)` for `sep = "/"`. -/
def joinSlash : List (List Char) → List Char
  | [] => []
  | [x] => x
  | x :: y :: r => x ++ '/' :: joinSlash (y :: r)

/-- Number of initial slashes kept by `posixpath.normpath`: 1 when the path
starts with `/`, upgraded to 2 when it starts with `//` but not `///`. -/
def initSlashes (p : List Char) : Nat :=
  if p.take 1 = ['/'] then
    (if p.take 2 = ['/', '/'] ∧ p.take 3 ≠ ['/', '/', '/'] then 2 else 1)
  else 0

/-- One iteration of the component-collapsing loop of `posixpath.normpath`,
with the accumulated components kept in reverse order (the head of `acc` is
`new_comps[-1]`): empty and `.` components are dropped, `..` pops the last
component unless the list is exhausted (kept for relative paths, dropped at
the root of absolute ones) or already ends in `..`. -/
def collapseStep (isAbs : Bool) (acc : List (List Char)) (comp : List Char) :
    List (List Char) :=
  if comp = [] ∨ comp = ['.'] then acc
  else if comp = ['.', '.'] then
    match acc with
    | [] => if isAbs then [] else [comp]
    | last :: t => if last = ['.', '.'] then comp :: last :: t else t
  else comp :: acc

/-- The component-collapsing loop of `posixpath.normpath`. -/
def collapseRev (isAbs : Bool) (acc : List (List Char)) (comps : List (List Char)) :
    List (List Char) :=
  comps.foldl (collapseStep isAbs) acc

/-- `posixpath.normpath`. -/
def normpath (p : List Char) : List Char :=
  if p = [] then ['.']
  else
    let k := initSlashes p
    let comps := (collapseRev (decide (0 < k)) [] (splitSlash p)).reverse
    let res := List.replicate k '/' ++ joinSlash comps
    if res = [] then ['.'] else res

/-- `posixpath.isabs`. -/
def isabs (p : List Char) : Bool := p.take 1 = ['/']

/-- `posixpath.join` for two parts. -/
def joinPath (a b : List Char) : List Char :=
  if isabs b then b
  else if a = [] ∨ a.getLast? = some '/' then a ++ b
  else a ++ '/' :: b

/--
`entrypoint.resolve_path` (lines 109-112): absolute inputs are normalized as
they are, relative ones are joined onto the workspace first.
-/
def resolve_path (workspace p : List Char) : List Char :=
  if isabs p then normpath p else normpath (joinPath workspace p)

/-- Length of `os.path.commonprefix` of two component lists. -/
def commonPrefixLen : List (List Char) → List (List Char) → Nat
  | x :: xs, y :: ys => if x = y then commonPrefixLen xs ys + 1 else 0
  | _, _ => 0

/-- `posixpath.relpath` for absolute arguments (where `abspath` is
`normpath`). -/
def relpath (p start : List Char) : List Char :=
  let pl := (splitSlash (normpath p)).filter (fun c => c ≠ [])
  let sl := (splitSlash (normpath start)).filter (fun c => c ≠ [])
  let i := commonPrefixLen sl pl
  let rel := List.replicate (sl.length - i) ['.', '.'] ++ pl.drop i
  if rel = [] then ['.'] else joinSlash rel

/--
`entrypoint.workspace_relpath` (lines 115-130): normalize both paths and
express the second relative to the first.
-/
def workspace_relpath (workspace p : List Char) : List Char :=
  relpath (normpath p) (normpath workspace)

/-- The relative collapse of a path's components: the components of
`normpath p` for relative `p`, reversed. -/
def relComps (p : List Char) : List (List Char) :=
  collapseRev false [] (splitSlash p)

/-- The path, after normalization, does not climb out of its root through
leading `..` components. -/
def staysUnder (p : List Char) : Bool :=
  decide (['.', '.'] ∉ relComps p)

/-!
## Artifact-path extraction

Lines 315-331 of `main`: search the captured helm output with
`re.search(r"saved it to:\s*(.+)\s*$", out, re.IGNORECASE | re.MULTILINE)`
(which yields the FIRST match), else glob `*.tgz` under the destination and
take the most recently modified one; fail otherwise with the raw output in
the message. The destination directory listing is passed as a list of
`(basename, mtime)` pairs in directory order.
-/

/-- Case-insensitive prefix test (`re.IGNORECASE` literal matching). -/
def startsWithCI : List Char → List Char → Bool
  | _, [] => true
  | [], _ :: _ => false
  | c :: s, l :: ls => c.toLower = l.toLower && startsWithCI s ls

/-- The literal part of the artifact pattern. -/
def litSaved : List Char := chars ("saved it to:")

/-- What `(.+)\s*$` captures right after the literal, following the greedy
backtracking of the regex engine: skip whitespace, then capture from the first
non-whitespace character to the end of its line; if only whitespace (with at
least one non-newline character) remains, the capture degenerates to the last
non-newline whitespace character. `none` when the tail cannot complete a
match. -/
def groupAt (tail : List Char) : Option (List Char) :=
  let afterWS := tail.dropWhile isPyWS
  if afterWS ≠ [] then some (afterWS.takeWhile (fun c => c ≠ '\n'))
  else
    match (tail.filter (fun c => c ≠ '\n')).getLast? with
    | some c => some [c]
    | none => none

/-- `re.search` for the artifact pattern: the capture at the first position
where the whole pattern matches. -/
def findSaved : List Char → Option (List Char)
  | [] => none
  | c :: rest =>
    if startsWithCI (c :: rest) litSaved then
      match groupAt ((c :: rest).drop litSaved.length) with
      | some g => some g
      | none => findSaved rest
    else findSaved rest

/-- Whether a basename is matched by `glob` pattern `*.tgz` (hidden files are
not matched by a leading `*`). -/
def isTgzName (n : List Char) : Bool :=
  (chars (".tgz")).isSuffixOf n && n.take 1 ≠ ['.']

/-- Head of the candidate list after Python's stable sort by mtime,
descending: the first entry with the maximal mtime. -/
def pickNewest : List (List Char × Nat) → Option (List Char × Nat)
  | [] => none
  | e :: t =>
    match pickNewest t with
    | none => some e
    | some m => if m.2 ≤ e.2 then some e else some m

/-- The `glob` fallback: newest `*.tgz` in the destination directory. -/
def newestTgz (destination : List Char) (entries : List (List Char × Nat)) :
    Option (List Char) :=
  (pickNewest (entries.filter (fun e => isTgzName e.1))).map
    (fun e => joinPath destination e.1)

/-- The failure message carries the raw tool output (`RuntimeError` text). -/
def artifactErr (out : List Char) : List Char :=
  chars ("Could not determine created package path from Helm output.\nOutput:\n") ++ out

/-- Lines 315-331 of `main`: artifact-path extraction with its fallback chain
and the final `if not package_path` check. -/
def extract_artifact_path (out : List Char) (destination : List Char)
    (entries : List (List Char × Nat)) : Except (List Char) (List Char) :=
  let fromOutput : Option (List Char) :=
    match findSaved out with
    | some g => some (pyStrip g)
    | none => newestTgz destination entries
  match fromOutput with
  | some p => if p = [] then Except.error (artifactErr out) else Except.ok p
  | none => Except.error (artifactErr out)

/-!
## Filesystem model for the pipeline spans of `main`

Paths are component lists; file contents have an abstract type `α`. YAML
parsing and serialization (`yaml.safe_load` / `yaml.safe_dump`) are passed in
as functions. The spans of `main` that touch the filesystem are embedded as
state transformers: the pre-install segment (lines 269-273) and the
values-merge segment (lines 277-294).
-/

structure FS (α : Type) where
  files : List String → Option α
  dirs : List String → Bool

/-- Write (create or overwrite) one file: `open(path, "w")` + write. -/
def fsWrite {α : Type} (p : List String) (a : α) (fs : FS α) : FS α :=
  { fs with files := fun q => if q = p then some a else fs.files q }

/-- `os.makedirs(p, exist_ok=True)`: the directory and all its parents
exist afterwards; nothing else changes. -/
def fsMakedirs {α : Type} (p : List String) (fs : FS α) : FS α :=
  { fs with dirs := fun q => if q.isPrefixOf p then true else fs.dirs q }

/-- `shutil.copytree src dst`: everything under `src` is duplicated under
`dst`; paths outside `dst` are untouched. -/
def fsCopytree {α : Type} (src dst : List String) (fs : FS α) : FS α :=
  { files := fun q =>
      if dst.isPrefixOf q then fs.files (src ++ q.drop dst.length) else fs.files q,
    dirs := fun q =>
      if dst.isPrefixOf q then fs.dirs (src ++ q.drop dst.length) else fs.dirs q }

/-- `entrypoint.load_yaml_file` (lines 164-167): parse, mapping a null
document to an empty mapping; `none` where `yaml.safe_load` raises. -/
def load_yaml_file {α : Type} (parse : α → Option Value) (a : α) : Option Value :=
  match parse a with
  | some Value.null => some (Value.map [])
  | some v => some v
  | none => none

/-- The values-merging loop of `main` (lines 281-286): fold the referenced
files into the accumulator with `deep_merge_values`, starting from the empty
mapping; error on a missing or unparsable file. -/
def mergedValues {α : Type} (parse : α → Option Value) (fs : FS α)
    (chartPath : List String) : List (List String) → Value → Except String Value
  | [], acc => Except.ok acc
  | ref :: rest, acc =>
    match fs.files (chartPath ++ ref) with
    | none => Except.error ("Values file not found")
    | some a =>
      match load_yaml_file parse a with
      | none => Except.error ("YAML parse error")
      | some v => mergedValues parse fs chartPath rest (deep_merge_values acc v)

/-- The basename of the normalized chart path (`os.path.basename`). -/
def chartBase (chartPath : List String) : String := (chartPath.getLast?).getD ""

/--
The values-merge span of `main` (lines 277-294): when values files are given,
merge them, create the temporary root (`tempfile.mkdtemp`, whose fresh name is
the `tmpRoot` argument), copy the chart into it and overwrite the copy's
`values.yaml` with the serialized merged document. Returns the filesystem and
the chart path used for packaging.
-/
def mergeSpan {α : Type} (parse : α → Option Value) (serialize : Value → α)
    (fs : FS α) (chartPath : List String) (valuesFiles : List (List String))
    (tmpRoot : List String) : Except String (FS α × List String) :=
  if valuesFiles = [] then Except.ok (fs, chartPath)
  else
    match mergedValues parse fs chartPath valuesFiles (Value.map []) with
    | Except.error e => Except.error e
    | Except.ok merged =>
      let fs1 := fsMakedirs tmpRoot fs
      let tmpChart := tmpRoot ++ [chartBase chartPath]
      let fs2 := fsCopytree chartPath tmpChart fs1
      let fs3 := fsWrite (tmpChart ++ ["values.yaml"]) (serialize merged) fs2
      Except.ok (fs3, tmpChart)

/-- The filesystem after the values-merge span (unchanged when the span
fails). -/
def mergeSpanFS {α : Type} (parse : α → Option Value) (serialize : Value → α)
    (fs : FS α) (chartPath : List String) (valuesFiles : List (List String))
    (tmpRoot : List String) : FS α :=
  match mergeSpan parse serialize fs chartPath valuesFiles tmpRoot with
  | Except.ok r => r.1
  | Except.error _ => fs

/-- The chart path handed to `helm package` (line 294: the temporary copy when
values files were merged, the original chart directory otherwise). -/
def mergeSpanChart {α : Type} (parse : α → Option Value) (serialize : Value → α)
    (fs : FS α) (chartPath : List String) (valuesFiles : List (List String))
    (tmpRoot : List String) : List String :=
  match mergeSpan parse serialize fs chartPath valuesFiles tmpRoot with
  | Except.ok r => r.2
  | Except.error _ => chartPath

/--
The filesystem at the end of `main` (lines 296-342): after the merge span the
program itself performs no further filesystem operation in the workspace — the
external tool's effect is the parameter `helmEffect` — and in particular
nothing removes the temporary workspace on any exit path.
-/
def mainFinalFS {α : Type} (parse : α → Option Value) (serialize : Value → α)
    (fs : FS α) (chartPath : List String) (valuesFiles : List (List String))
    (tmpRoot : List String) (helmEffect : FS α → FS α) : FS α :=
  match mergeSpan parse serialize fs chartPath valuesFiles tmpRoot with
  | Except.ok r => helmEffect r.1
  | Except.error _ => fs

/--
The pre-install segment of `main` (lines 269-273): require `Chart.yaml`
directly under the resolved chart path, then create the resolved destination
directory (with parents) before `install_helm` and any tool invocation.
-/
def setupSpan {α : Type} (fs : FS α) (chartPath destination : List String) :
    Except String (FS α) :=
  match fs.files (chartPath ++ ["Chart.yaml"]) with
  | none => Except.error ("Chart.yaml not found")
  | some _ => Except.ok (fsMakedirs destination fs)

/-- Whether a document is a Mapping (Python `isinstance(x, dict)`). -/
def isMapB : Value → Bool
  | Value.map _ => true
  | _ => false

/-- Entries of the base document of the spec's merge example
`(a:1, nested:(x:1, keep:"k"), lst:[1,2])`. -/
def exBaseEntries : List (String × Value) :=
  [("a", Value.scalar "1"),
   ("nested", Value.map [("x", Value.scalar "1"), ("keep", Value.scalar "k")]),
   ("lst", Value.seq [Value.scalar "1", Value.scalar "2"])]

/-- Entries of the override document `(nested:(x:9, y:2), lst:[3], b:2)`. -/
def exOverrideEntries : List (String × Value) :=
  [("nested", Value.map [("x", Value.scalar "9"), ("y", Value.scalar "2")]),
   ("lst", Value.seq [Value.scalar "3"]),
   ("b", Value.scalar "2")]

/-- The expected merge result `(a:1, b:2, nested:(x:9, y:2, keep:"k"),
lst:[3])`. -/
def exExpected : Value :=
  Value.map
    [("a", Value.scalar "1"),
     ("b", Value.scalar "2"),
     ("nested", Value.map
       [("x", Value.scalar "9"), ("y", Value.scalar "2"), ("keep", Value.scalar "k")]),
     ("lst", Value.seq [Value.scalar "3"])]

/-!
## Merge lemmas (claims C1 and C6)
-/

theorem deep_merge_map_map (b o : List (String × Value)) :
    deep_merge_values (Value.map b) (Value.map o) = Value.map (mergeList b o) := by
  simp [deep_merge_values]

theorem deep_merge_not_both {b o : Value} (h : isMapB b = false ∨ isMapB o = false) :
    deep_merge_values b o = o := by
  cases b <;> cases o <;> simp_all [isMapB, deep_merge_values]

theorem findValue_updateKey_self (b : List (String × Value)) (k : String) (v : Value) :
    findValue (updateKey b k v) k =
      some (match findValue b k with
            | some w => deep_merge_values w v
            | none => v) := by
  induction b with
  | nil => simp [updateKey, findValue]
  | cons e t ih =>
    obtain ⟨k1, v1⟩ := e
    by_cases hk : k1 = k
    · subst hk
      simp [updateKey, findValue]
    · simp [updateKey, findValue, hk, ih]

theorem findValue_updateKey_ne {k1 k2 : String} (hne : k1 ≠ k2)
    (b : List (String × Value)) (v : Value) :
    findValue (updateKey b k1 v) k2 = findValue b k2 := by
  induction b with
  | nil => simp [updateKey, findValue, hne]
  | cons e t ih =>
    obtain ⟨ka, va⟩ := e
    by_cases hk : ka = k1
    · subst hk
      simp [updateKey, findValue, hne]
    · simp [updateKey, findValue, hk, ih]

theorem findValue_mergeList_notin {o : List (String × Value)} {k : String}
    (h : containsKey o k = false) (b : List (String × Value)) :
    findValue (mergeList b o) k = findValue b k := by
  induction o generalizing b with
  | nil => simp [mergeList]
  | cons e rest ih =>
    obtain ⟨k1, v1⟩ := e
    have hk1 : k1 ≠ k := by
      intro he
      subst he
      simp [containsKey, findValue] at h
    have hrest : containsKey rest k = false := by
      simpa [containsKey, findValue, hk1] using h
    simp only [mergeList]
    rw [ih hrest, findValue_updateKey_ne hk1]

theorem findValue_mergeList_mem {o : List (String × Value)} (hnd : nodupKeysB o = true)
    {k : String} {ov : Value} (hfind : findValue o k = some ov)
    (b : List (String × Value)) :
    findValue (mergeList b o) k =
      some (match findValue b k with
            | some w => deep_merge_values w ov
            | none => ov) := by
  induction o generalizing b with
  | nil => simp [findValue] at hfind
  | cons e rest ih =>
    obtain ⟨k1, v1⟩ := e
    have hnd2 : containsKey rest k1 = false ∧ nodupKeysB rest = true := by
      simpa [nodupKeysB] using hnd
    by_cases hk : k1 = k
    · subst hk
      have hov : v1 = ov := by simpa [findValue] using hfind
      subst hov
      simp only [mergeList]
      rw [findValue_mergeList_notin hnd2.1, findValue_updateKey_self]
    · have hfr : findValue rest k = some ov := by simpa [findValue, hk] using hfind
      simp only [mergeList]
      rw [ih hnd2.2 hfr, findValue_updateKey_ne hk]

theorem findValue_mergeList_both {o b : List (String × Value)} {k : String}
    {ov w : Value} (hnd : nodupKeysB o = true) (hfo : findValue o k = some ov)
    (hfb : findValue b k = some w) :
    findValue (mergeList b o) k = some (deep_merge_values w ov) := by
  have h := findValue_mergeList_mem hnd hfo b
  rw [hfb] at h
  exact h

theorem findValue_mergeList_onlyOverride {o b : List (String × Value)} {k : String}
    {ov : Value} (hnd : nodupKeysB o = true) (hfo : findValue o k = some ov)
    (hfb : findValue b k = none) :
    findValue (mergeList b o) k = some ov := by
  have h := findValue_mergeList_mem hnd hfo b
  rw [hfb] at h
  exact h

theorem updateKey_self_eq {b : List (String × Value)} {k : String} {w v : Value}
    (hf : findValue b k = some w) (hm : deep_merge_values w v = w) :
    updateKey b k v = b := by
  induction b with
  | nil => simp [findValue] at hf
  | cons e t ih =>
    obtain ⟨k1, v1⟩ := e
    by_cases hk : k1 = k
    · subst hk
      have hw : v1 = w := by simpa [findValue] using hf
      subst hw
      simp [updateKey, hm]
    · have hf2 : findValue t k = some w := by simpa [findValue, hk] using hf
      simp [updateKey, hk, ih hf2]

theorem mergeList_no_change {o b : List (String × Value)}
    (h : ∀ p ∈ o, ∃ w, findValue b p.1 = some w ∧ deep_merge_values w p.2 = w) :
    mergeList b o = b := by
  induction o with
  | nil => simp [mergeList]
  | cons e rest ih =>
    obtain ⟨k, v⟩ := e
    obtain ⟨w, hw, hm⟩ := h (k, v) (List.mem_cons_self _ _)
    have hup : updateKey b k v = b := updateKey_self_eq hw hm
    simp only [mergeList, hup]
    exact ih (fun p hp => h p (List.mem_cons_of_mem _ hp))

theorem mem_entries_sizeOf {es : List (String × Value)} {p : String × Value}
    (h : p ∈ es) : sizeOf p.2 < sizeOf es := by
  induction es with
  | nil => simp at h
  | cons e t ih =>
    rcases List.mem_cons.mp h with he | ht
    · subst he
      obtain ⟨k, v⟩ := p
      simp only [List.cons.sizeOf_spec, Prod.mk.sizeOf_spec]
      omega
    · have := ih ht
      simp only [List.cons.sizeOf_spec]
      omega

theorem containsKey_of_mem {es : List (String × Value)} {k : String} {v : Value}
    (h : (k, v) ∈ es) : containsKey es k = true := by
  induction es with
  | nil => simp at h
  | cons e t ih =>
    obtain ⟨k1, v1⟩ := e
    by_cases hk : k1 = k
    · simp [containsKey, findValue, hk]
    · rcases List.mem_cons.mp h with he | ht
      · cases he
        simp at hk
      · simpa [containsKey, findValue, hk] using ih ht

theorem findValue_of_mem_nodup {es : List (String × Value)}
    (hnd : nodupKeysB es = true) {k : String} {v : Value} (h : (k, v) ∈ es) :
    findValue es k = some v := by
  induction es with
  | nil => simp at h
  | cons e t ih =>
    obtain ⟨k1, v1⟩ := e
    have hnd2 : containsKey t k1 = false ∧ nodupKeysB t = true := by
      simpa [nodupKeysB] using hnd
    rcases List.mem_cons.mp h with he | ht
    · cases he
      simp [findValue]
    · have hk : k1 ≠ k := by
        intro he
        subst he
        exact absurd (containsKey_of_mem ht) (by simp [hnd2.1])
      simpa [findValue, hk] using ih hnd2.2 ht

theorem wfEntries_mem {es : List (String × Value)} (h : wfEntries es = true)
    {p : String × Value} (hp : p ∈ es) : wfValue p.2 = true := by
  induction es with
  | nil => simp at hp
  | cons e t ih =>
    have h2 : wfValue e.2 = true ∧ wfEntries t = true := by
      simpa [wfEntries] using h
    rcases List.mem_cons.mp hp with he | ht
    · subst he
      exact h2.1
    · exact ih h2.2 ht

theorem wf_map_parts {es : List (String × Value)}
    (h : wfValue (Value.map es) = true) :
    nodupKeysB es = true ∧ wfEntries es = true := by
  simpa [wfValue] using h

theorem merge_self : ∀ (x : Value), wfValue x = true → deep_merge_values x x = x := by
  have key : ∀ (n : Nat) (x : Value), sizeOf x ≤ n → wfValue x = true →
      deep_merge_values x x = x := by
    intro n
    induction n using Nat.strong_induction_on with
    | _ n ih =>
      intro x hle hwf
      cases x with
      | null => exact deep_merge_not_both (Or.inl (by simp [isMapB]))
      | scalar s => exact deep_merge_not_both (Or.inl (by simp [isMapB]))
      | seq l => exact deep_merge_not_both (Or.inl (by simp [isMapB]))
      | map es =>
        rw [deep_merge_map_map]
        have hnd := (wf_map_parts hwf).1
        have hwe := (wf_map_parts hwf).2
        congr 1
        apply mergeList_no_change
        intro p hp
        obtain ⟨k, v⟩ := p
        refine ⟨v, findValue_of_mem_nodup hnd hp, ?_⟩
        have hsz : sizeOf (v : Value) < n := by
          have h1 : sizeOf (v : Value) < sizeOf es := mem_entries_sizeOf hp
          have h2 : sizeOf (Value.map es) = 1 + sizeOf es := by
            simp [Value.map.sizeOf_spec]
          omega
        exact ih (sizeOf v) hsz v le_rfl (wfEntries_mem hwe hp)
  exact fun x => key (sizeOf x) x le_rfl

theorem merge_remerge : ∀ (o : Value), wfValue o = true → ∀ (b : Value),
    deep_merge_values (deep_merge_values b o) o = deep_merge_values b o := by
  have key : ∀ (n : Nat) (o : Value), sizeOf o ≤ n → wfValue o = true →
      ∀ (b : Value),
      deep_merge_values (deep_merge_values b o) o = deep_merge_values b o := by
    intro n
    induction n using Nat.strong_induction_on with
    | _ n ih =>
      intro o hle hwf b
      cases o with
      | null =>
        have h1 : deep_merge_values b Value.null = Value.null :=
          deep_merge_not_both (Or.inr rfl)
        rw [h1]
        exact deep_merge_not_both (Or.inr rfl)
      | scalar s =>
        have h1 : deep_merge_values b (Value.scalar s) = Value.scalar s :=
          deep_merge_not_both (Or.inr rfl)
        rw [h1]
        exact deep_merge_not_both (Or.inr rfl)
      | seq l =>
        have h1 : deep_merge_values b (Value.seq l) = Value.seq l :=
          deep_merge_not_both (Or.inr rfl)
        rw [h1]
        exact deep_merge_not_both (Or.inr rfl)
      | map os =>
        have hnd := (wf_map_parts hwf).1
        have hwe := (wf_map_parts hwf).2
        cases b with
        | map bs =>
          rw [deep_merge_map_map, deep_merge_map_map]
          congr 1
          apply mergeList_no_change
          intro p hp
          obtain ⟨k, v⟩ := p
          have hfo : findValue os k = some v := findValue_of_mem_nodup hnd hp
          have hwv : wfValue v = true := wfEntries_mem hwe hp
          have hsz : sizeOf (v : Value) < n := by
            have h1 : sizeOf (v : Value) < sizeOf os := mem_entries_sizeOf hp
            have h2 : sizeOf (Value.map os) = 1 + sizeOf os := by
              simp [Value.map.sizeOf_spec]
            omega
          cases hb : findValue bs k with
          | some w =>
            refine ⟨deep_merge_values w v, findValue_mergeList_both hnd hfo hb, ?_⟩
            exact ih (sizeOf v) hsz v le_rfl hwv w
          | none =>
            exact ⟨v, findValue_mergeList_onlyOverride hnd hfo hb, merge_self v hwv⟩
        | null =>
          have h1 : deep_merge_values Value.null (Value.map os) = Value.map os :=
            deep_merge_not_both (Or.inl rfl)
          calc deep_merge_values (deep_merge_values Value.null (Value.map os)) (Value.map os)
              = deep_merge_values (Value.map os) (Value.map os) := by rw [h1]
            _ = Value.map os := merge_self _ hwf
            _ = deep_merge_values Value.null (Value.map os) := h1.symm
        | scalar s =>
          have h1 : deep_merge_values (Value.scalar s) (Value.map os) = Value.map os :=
            deep_merge_not_both (Or.inl rfl)
          calc deep_merge_values (deep_merge_values (Value.scalar s) (Value.map os)) (Value.map os)
              = deep_merge_values (Value.map os) (Value.map os) := by rw [h1]
            _ = Value.map os := merge_self _ hwf
            _ = deep_merge_values (Value.scalar s) (Value.map os) := h1.symm
        | seq l =>
          have h1 : deep_merge_values (Value.seq l) (Value.map os) = Value.map os :=
            deep_merge_not_both (Or.inl rfl)
          calc deep_merge_values (deep_merge_values (Value.seq l) (Value.map os)) (Value.map os)
              = deep_merge_values (Value.map os) (Value.map os) := by rw [h1]
            _ = Value.map os := merge_self _ hwf
            _ = deep_merge_values (Value.seq l) (Value.map os) := h1.symm
  exact fun o hwf b => key (sizeOf o) o le_rfl hwf b

/--
C1: for every pair of values documents, if both are Mappings the merge is a
Mapping built over every key of base — keys in both sides are recursively
merged, keys only in base keep the base value, keys only in override take the
override value; in every other case the result is the override verbatim (so
sequences are never merged element-wise); and the spec's concrete example
merges as stated (as Python mapping equality, insertion order aside).
-/
theorem deep_merge_values_mapping_spec :
    (∀ (b o : List (String × Value)), nodupKeysB o = true →
      deep_merge_values (Value.map b) (Value.map o) = Value.map (mergeList b o) ∧
      (∀ k bv ov, findValue b k = some bv → findValue o k = some ov →
        findValue (mergeList b o) k = some (deep_merge_values bv ov)) ∧
      (∀ k, findValue o k = none → findValue (mergeList b o) k = findValue b k) ∧
      (∀ k ov, findValue b k = none → findValue o k = some ov →
        findValue (mergeList b o) k = some ov)) ∧
    (∀ base ovr : Value, isMapB base = false ∨ isMapB ovr = false →
      deep_merge_values base ovr = ovr) ∧
    vequiv (deep_merge_values (Value.map exBaseEntries) (Value.map exOverrideEntries))
      exExpected = true := by
  refine ⟨?_, fun base ovr h => deep_merge_not_both h, ?_⟩
  · intro b o hnd
    refine ⟨deep_merge_map_map b o, ?_, ?_, ?_⟩
    · intro k bv ov hb ho
      exact findValue_mergeList_both hnd ho hb
    · intro k ho
      exact findValue_mergeList_notin (by simp [containsKey, ho]) b
    · intro k ov hb ho
      exact findValue_mergeList_onlyOverride hnd ho hb
  · simp [exBaseEntries, exOverrideEntries, exExpected, deep_merge_values, mergeList,
      updateKey, vequiv, seqEquiv, subEquiv, findValue, keysIncluded, containsKey]

/-- Witness for C1: the characterization applied to the spec's example
documents at keys of each kind. -/
theorem deep_merge_values_mapping_spec_witness :
    deep_merge_values (Value.map exBaseEntries) (Value.map exOverrideEntries)
      = Value.map (mergeList exBaseEntries exOverrideEntries) ∧
    findValue (mergeList exBaseEntries exOverrideEntries) "a"
      = findValue exBaseEntries "a" ∧
    findValue (mergeList exBaseEntries exOverrideEntries) "b"
      = some (Value.scalar "2") ∧
    findValue (mergeList exBaseEntries exOverrideEntries) "lst"
      = some (deep_merge_values (Value.seq [Value.scalar "1", Value.scalar "2"])
          (Value.seq [Value.scalar "3"])) ∧
    deep_merge_values (Value.seq [Value.scalar "1"]) (Value.scalar "s") = Value.scalar "s" := by
  have h := deep_merge_values_mapping_spec
  have h1 := h.1 exBaseEntries exOverrideEntries (by decide)
  refine ⟨h1.1, h1.2.2.1 "a" rfl, ?_, ?_, h.2.1 _ _ (Or.inl rfl)⟩
  · exact h1.2.2.2 "b" (Value.scalar "2") rfl rfl
  · exact h1.2.1 "lst" _ _ rfl rfl

/--
C6: re-merging an override is a no-op — merging an already-merged document
with the same override again changes nothing, and merging any document with
itself returns it unchanged (for well-formed documents, i.e. Python dicts).
-/
theorem deep_merge_values_remerge_idempotent :
    (∀ (base override : Value), wfValue override = true →
      deep_merge_values (deep_merge_values base override) override
        = deep_merge_values base override) ∧
    (∀ (x : Value), wfValue x = true → deep_merge_values x x = x) :=
  ⟨fun base override h => merge_remerge override h base,
   fun x h => merge_self x h⟩

/-- Witness for C6: idempotence at the spec's example documents. -/
theorem deep_merge_values_remerge_idempotent_witness :
    deep_merge_values
        (deep_merge_values (Value.map exBaseEntries) (Value.map exOverrideEntries))
        (Value.map exOverrideEntries)
      = deep_merge_values (Value.map exBaseEntries) (Value.map exOverrideEntries) ∧
    deep_merge_values (Value.map exBaseEntries) (Value.map exBaseEntries)
      = Value.map exBaseEntries :=
  ⟨deep_merge_values_remerge_idempotent.1 _ _ (by decide),
   deep_merge_values_remerge_idempotent.2 _ (by decide)⟩

/--
C5 counterexample: for the input with a leading space, the code strips the
input and returns the stripped string, which is neither the input unchanged
nor the input with `v` prepended, as the claim requires.
-/
theorem ensure_v_prefix_counterexample :
    ensure_v_prefix (chars (" v1.2.3")) = Except.ok (chars ("v1.2.3")) ∧
    chars ("v1.2.3") ≠ chars (" v1.2.3") ∧
    chars ("v1.2.3") ≠ 'v' :: chars (" v1.2.3") := by
  refine ⟨rfl, by decide, by decide⟩

/--
C5 (amended): `ensure_v_prefix` fails for every input that is empty after
trimming whitespace; for every other input it returns the trimmed input
unchanged if that already starts with `v`, and otherwise the trimmed input
with `v` prepended.
-/
theorem ensure_v_prefix_spec (s : List Char) :
    (pyStrip s = [] → ensure_v_prefix s = Except.error ("helm_version is empty")) ∧
    (pyStrip s ≠ [] → (pyStrip s).take 1 = ['v'] →
      ensure_v_prefix s = Except.ok (pyStrip s)) ∧
    (pyStrip s ≠ [] → (pyStrip s).take 1 ≠ ['v'] →
      ensure_v_prefix s = Except.ok ('v' :: pyStrip s)) := by
  refine ⟨fun h => ?_, fun h hv => ?_, fun h hv => ?_⟩
  · simp [ ensure_v_prefix, h]
  · simp [ ensure_v_prefix, h, hv]
  · simp [ ensure_v_prefix, h, hv]

/-- Witness for the amended C5: all three branches at concrete inputs. -/
theorem ensure_v_prefix_spec_witness :
    ensure_v_prefix (chars ("  ")) = Except.error ("helm_version is empty") ∧
    ensure_v_prefix (chars (" v3.14.4 ")) = Except.ok (chars ("v3.14.4")) ∧
    ensure_v_prefix (chars ("3.14.4")) = Except.ok ('v' :: chars ("3.14.4")) := by
  refine ⟨(ensure_v_prefix_spec (chars ("  "))).1 (by decide), ?_, ?_⟩
  · exact (ensure_v_prefix_spec (chars (" v3.14.4 "))).2.1 (by decide) (by decide)
  · exact (ensure_v_prefix_spec (chars ("3.14.4"))).2.2 (by decide) (by decide)

/--
C9: an environment input set to the empty string is treated exactly like an
absent one — `get_input` returns the default when one is given, and errors for
a required input with no default.
-/
theorem get_input_empty_eq_missing :
    (∀ (dflt : Option String) (required : Bool),
      get_input (some "") dflt required = get_input none dflt required) ∧
    (∀ (d : String) (required : Bool),
      get_input (some "") (some d) required = Except.ok d) ∧
    get_input (some "") none true = Except.error ("Missing required input") := by
  refine ⟨fun dflt required => rfl, fun d required => ?_, rfl⟩
  simp [get_input, get_input_missing]

/--
C7: every successfully built package command starts with the tool name, the
subcommand, the chart path and `--destination` as its first four tokens,
carries `--version <chart_version>` and `--app-version <chart_app_version>` as
adjacent pairs within the nine fixed tokens (hence before any extra tokens),
and ends with exactly the shell-style tokenization of the raw extra-argument
string in its original order, with a whitespace-only string contributing no
extra tokens.
-/
theorem build_helm_package_cmd_spec (chart dest ver app args : List Char)
    (cmd : List (List Char))
    (h : build_helm_package_cmd chart dest ver app args = some cmd) :
    cmd.take 4 = [chars ("helm"), chars ("package"), chart, chars ("--destination")] ∧
    cmd.take 9 = [chars ("helm"), chars ("package"), chart, chars ("--destination"), dest,
      chars ("--version"), ver, chars ("--app-version"), app] ∧
    (cmd.drop 5).take 2 = [chars ("--version"), ver] ∧
    (cmd.drop 7).take 2 = [chars ("--app-version"), app] ∧
    (pyStrip args = [] →
      cmd = [chars ("helm"), chars ("package"), chart, chars ("--destination"), dest,
        chars ("--version"), ver, chars ("--app-version"), app]) ∧
    (pyStrip args ≠ [] → shlexSplit args = some (cmd.drop 9)) := by
  unfold build_helm_package_cmd at h
  by_cases hs : pyStrip args = []
  · rw [if_pos hs] at h
    cases h
    refine ⟨rfl, rfl, rfl, rfl, fun _ => rfl, fun hne => absurd hs hne⟩
  · rw [if_neg hs] at h
    cases hx : shlexSplit args with
    | none => rw [hx] at h; cases h
    | some extra =>
      rw [hx] at h
      cases h
      have hd : (([chars ("helm"), chars ("package"), chart, chars ("--destination"),
          dest, chars ("--version"), ver, chars ("--app-version"), app] ++ extra).drop 9)
          = extra := rfl
      exact ⟨rfl, rfl, rfl, rfl, fun he => absurd he hs,
        fun _ => congrArg some hd.symm⟩

/-- Witness for C7: the command built from extra arguments with quoting; the
extras appear tokenized after the nine fixed tokens. -/
theorem build_helm_package_cmd_spec_witness :
    shlexSplit (chars ("--debug 'a b'")) =
      some (([chars ("helm"), chars ("package"), chars ("mychart"), chars ("--destination"),
        chars ("dist"), chars ("--version"), chars ("1.2.3"), chars ("--app-version"),
        chars ("4.5.6"), chars ("--debug"), chars ("a b")]).drop 9) := by
  have h := build_helm_package_cmd_spec (chars ("mychart")) (chars ("dist"))
    (chars ("1.2.3")) (chars ("4.5.6")) (chars ("--debug 'a b'"))
    ([chars ("helm"), chars ("package"), chars ("mychart"), chars ("--destination"),
      chars ("dist"), chars ("--version"), chars ("1.2.3"), chars ("--app-version"),
      chars ("4.5.6"), chars ("--debug"), chars ("a b")]) rfl
  exact h.2.2.2.2.2 (by decide)

/-!
## Path lemmas (claim C8)
-/

theorem splitSlash_ne_nil (l : List Char) : splitSlash l ≠ [] := by
  cases l with
  | nil => simp [splitSlash]
  | cons c t =>
    simp only [splitSlash]
    cases splitSlash t with
    | nil => simp
    | cons h r =>
      by_cases hc : c = '/' <;> simp [hc]

theorem splitSlash_slash_cons (z : List Char) :
    splitSlash ('/' :: z) = [] :: splitSlash z := by
  simp only [splitSlash]
  cases hz : splitSlash z with
  | nil => exact absurd hz (splitSlash_ne_nil z)
  | cons h r => simp

theorem splitSlash_other_cons {c : Char} (hc : c ≠ '/') (z : List Char) :
    ∃ h r, splitSlash z = h :: r ∧ splitSlash (c :: z) = (c :: h) :: r := by
  cases hz : splitSlash z with
  | nil => exact absurd hz (splitSlash_ne_nil z)
  | cons h r =>
    refine ⟨h, r, rfl, ?_⟩
    simp only [splitSlash, hz]
    simp [hc]

theorem splitSlash_append_slash (a b : List Char) :
    splitSlash (a ++ '/' :: b) = splitSlash a ++ splitSlash b := by
  induction a with
  | nil =>
    simp only [List.nil_append]
    rw [splitSlash_slash_cons]
    rfl
  | cons c t ih =>
    by_cases hc : c = '/'
    · subst hc
      rw [List.cons_append, splitSlash_slash_cons, splitSlash_slash_cons, ih,
        List.cons_append]
    · obtain ⟨h1, r1, he1, he2⟩ := splitSlash_other_cons hc (t ++ '/' :: b)
      obtain ⟨h2, r2, hf1, hf2⟩ := splitSlash_other_cons hc t
      rw [List.cons_append, he2, hf2]
      rw [ih, hf1] at he1
      cases r2 with
      | nil => simp at he1; simp [he1]
      | cons x y =>
        simp only [List.cons_append] at he1
        cases he1
        simp

theorem splitSlash_no_slash (l : List Char) : ∀ x ∈ splitSlash l, '/' ∉ x := by
  induction l with
  | nil =>
    intro x hx
    simp [splitSlash] at hx
    simp [hx]
  | cons c t ih =>
    intro x hx
    by_cases hc : c = '/'
    · subst hc
      rw [splitSlash_slash_cons] at hx
      rcases List.mem_cons.mp hx with he | ht
      · simp [he]
      · exact ih x ht
    · obtain ⟨h1, r1, hf1, hf2⟩ := splitSlash_other_cons hc t
      rw [hf2] at hx
      rcases List.mem_cons.mp hx with he | ht
      · subst he
        have hh1 : '/' ∉ h1 := ih h1 (by rw [hf1]; exact List.mem_cons_self _ _)
        intro hmem
        rcases List.mem_cons.mp hmem with h1e | h2e
        · exact hc h1e.symm
        · exact hh1 h2e
      · exact ih x (by rw [hf1]; exact List.mem_cons_of_mem _ ht)

theorem splitSlash_single {x : List Char} (h : '/' ∉ x) : splitSlash x = [x] := by
  induction x with
  | nil => rfl
  | cons c t ih =>
    have hc : c ≠ '/' := fun he => h (by simp [he])
    have ht : '/' ∉ t := fun hm => h (List.mem_cons_of_mem _ hm)
    obtain ⟨h1, r1, hf1, hf2⟩ := splitSlash_other_cons hc t
    rw [hf2]
    rw [ih ht] at hf1
    cases hf1
    rfl

theorem splitSlash_joinSlash {L : List (List Char)} (hL : ∀ x ∈ L, '/' ∉ x)
    (hne : L ≠ []) : splitSlash (joinSlash L) = L := by
  induction L with
  | nil => exact absurd rfl hne
  | cons x r ih =>
    cases r with
    | nil =>
      simp only [joinSlash]
      exact splitSlash_single (hL x (List.mem_cons_self _ _))
    | cons y s =>
      have hx : '/' ∉ x := hL x (List.mem_cons_self _ _)
      show splitSlash (x ++ '/' :: joinSlash (y :: s)) = x :: y :: s
      rw [splitSlash_append_slash, splitSlash_single hx,
        ih (fun z hz => hL z (List.mem_cons_of_mem _ hz)) (by simp)]
      rfl

theorem splitSlash_replicate (k : Nat) (rest : List Char) :
    splitSlash (List.replicate k '/' ++ rest) =
      List.replicate k [] ++ splitSlash rest := by
  induction k with
  | zero => rfl
  | succ n ih =>
    rw [List.replicate_succ, List.cons_append, splitSlash_slash_cons, ih,
      List.replicate_succ, List.cons_append]

theorem joinSlash_ne_nil {L : List (List Char)} (hne : L ≠ [])
    (h : ∀ x ∈ L, x ≠ []) : joinSlash L ≠ [] := by
  cases L with
  | nil => exact absurd rfl hne
  | cons x r =>
    cases r with
    | nil => exact h x (List.mem_cons_self _ _)
    | cons y s =>
      show x ++ '/' :: joinSlash (y :: s) ≠ []
      simp

theorem collapseRev_cons (f : Bool) (acc : List (List Char)) (comp : List Char)
    (rest : List (List Char)) :
    collapseRev f acc (comp :: rest) = collapseRev f (collapseStep f acc comp) rest := rfl

theorem collapseRev_append (f : Bool) (acc xs ys : List (List Char)) :
    collapseRev f acc (xs ++ ys) = collapseRev f (collapseRev f acc xs) ys :=
  List.foldl_append _ _ _ _

theorem ddot_mem_collapse {acc : List (List Char)} (h : ['.', '.'] ∈ acc)
    (ys : List (List Char)) : ['.', '.'] ∈ collapseRev false acc ys := by
  induction ys generalizing acc with
  | nil => exact h
  | cons comp rest ih =>
    rw [collapseRev_cons]
    apply ih
    unfold collapseStep
    by_cases h1 : comp = [] ∨ comp = ['.']
    · rwa [if_pos h1]
    · rw [if_neg h1]
      by_cases h2 : comp = ['.', '.']
      · rw [if_pos h2]
        cases acc with
        | nil => simp at h
        | cons last t =>
          change ['.', '.'] ∈ (if last = ['.', '.'] then comp :: last :: t else t)
          by_cases h3 : last = ['.', '.']
          · rw [if_pos h3]
            subst h2
            exact List.mem_cons_self _ _
          · rw [if_neg h3]
            rcases List.mem_cons.mp h with he | ht
            · exact absurd he.symm h3
            · exact ht
      · rw [if_neg h2]
        exact List.mem_cons_of_mem _ h

theorem collapse_stack (ys : List (List Char)) :
    ∀ (S W : List (List Char)), ['.', '.'] ∉ collapseRev false S ys →
    ['.', '.'] ∉ S →
    collapseRev true (S ++ W) ys = collapseRev false S ys ++ W := by
  induction ys with
  | nil =>
    intro S W h1 h2
    rfl
  | cons comp rest ih =>
    intro S W hres hS
    rw [collapseRev_cons] at hres ⊢
    rw [collapseRev_cons]
    by_cases h1 : comp = [] ∨ comp = ['.']
    · have e1 : collapseStep true (S ++ W) comp = S ++ W := by
        simp [collapseStep, h1]
      have e2 : collapseStep false S comp = S := by
        simp [collapseStep, h1]
      rw [e2] at hres
      rw [e1, e2]
      exact ih S W hres hS
    · by_cases h2 : comp = ['.', '.']
      · subst h2
        cases S with
        | nil =>
          exfalso
          apply hres
          have e2 : collapseStep false [] ['.', '.'] = [['.', '.']] := by
            simp [collapseStep, h1]
          rw [e2]
          exact ddot_mem_collapse (List.mem_cons_self _ _) rest
        | cons s t =>
          have hs : s ≠ ['.', '.'] := fun he => hS (he ▸ List.mem_cons_self _ _)
          have e1 : collapseStep true ((s :: t) ++ W) ['.', '.'] = t ++ W := by
            simp only [List.cons_append, collapseStep, if_neg h1]
            simp [hs]
          have e2 : collapseStep false (s :: t) ['.', '.'] = t := by
            simp only [collapseStep, if_neg h1]
            simp [hs]
          rw [e2] at hres
          rw [e1, e2]
          exact ih t W hres (fun hm => hS (List.mem_cons_of_mem _ hm))
      · have e1 : collapseStep true (S ++ W) comp = comp :: (S ++ W) := by
          simp [collapseStep, h1, h2]
        have e2 : collapseStep false S comp = comp :: S := by
          simp [collapseStep, h1, h2]
        rw [e2] at hres
        rw [e1, e2]
        have hS2 : ['.', '.'] ∉ comp :: S := by
          intro hm
          rcases List.mem_cons.mp hm with he | ht
          · exact h2 he.symm
          · exact hS ht
        exact ih (comp :: S) W hres hS2

theorem collapseStep_mem {f : Bool} {acc : List (List Char)} {comp x : List Char}
    (h : x ∈ collapseStep f acc comp) :
    x ∈ acc ∨ (x = comp ∧ comp ≠ [] ∧ comp ≠ ['.']) ∨ x = ['.', '.'] := by
  unfold collapseStep at h
  by_cases h1 : comp = [] ∨ comp = ['.']
  · rw [if_pos h1] at h
    exact Or.inl h
  · rw [if_neg h1] at h
    have h1a : comp ≠ [] ∧ comp ≠ ['.'] := not_or.mp h1
    by_cases h2 : comp = ['.', '.']
    · rw [if_pos h2] at h
      cases acc with
      | nil =>
        cases f with
        | true => simp at h
        | false =>
          rcases List.mem_cons.mp h with he | ht
          · exact Or.inr (Or.inr (he.trans h2))
          · simp at ht
      | cons last t =>
        change x ∈ (if last = ['.', '.'] then comp :: last :: t else t) at h
        by_cases h3 : last = ['.', '.']
        · rw [if_pos h3] at h
          rcases List.mem_cons.mp h with he | ht
          · exact Or.inr (Or.inr (he.trans h2))
          · exact Or.inl ht
        · rw [if_neg h3] at h
          exact Or.inl (List.mem_cons_of_mem _ h)
    · rw [if_neg h2] at h
      rcases List.mem_cons.mp h with he | ht
      · exact Or.inr (Or.inl ⟨he, h1a⟩)
      · exact Or.inl ht

theorem collapse_mem {f : Bool} (ys : List (List Char)) :
    ∀ (acc : List (List Char)) (x : List Char), x ∈ collapseRev f acc ys →
    x ∈ acc ∨ (x ∈ ys ∧ x ≠ [] ∧ x ≠ ['.']) ∨ x = ['.', '.'] := by
  induction ys with
  | nil =>
    intro acc x h
    exact Or.inl h
  | cons comp rest ih =>
    intro acc x h
    rw [collapseRev_cons] at h
    rcases ih _ x h with hstep | hrest | hd
    · rcases collapseStep_mem hstep with ha | hc | hd
      · exact Or.inl ha
      · exact Or.inr (Or.inl ⟨hc.1 ▸ List.mem_cons_self _ _, hc.1 ▸ hc.2.1, hc.1 ▸ hc.2.2⟩)
      · exact Or.inr (Or.inr hd)
    · exact Or.inr (Or.inl ⟨List.mem_cons_of_mem _ hrest.1, hrest.2⟩)
    · exact Or.inr (Or.inr hd)

theorem collapseStep_no_ddot_abs {acc : List (List Char)} {comp : List Char}
    (h : ['.', '.'] ∉ acc) : ['.', '.'] ∉ collapseStep true acc comp := by
  intro hm
  unfold collapseStep at hm
  by_cases h1 : comp = [] ∨ comp = ['.']
  · rw [if_pos h1] at hm
    exact h hm
  · rw [if_neg h1] at hm
    by_cases h2 : comp = ['.', '.']
    · rw [if_pos h2] at hm
      cases acc with
      | nil => simp at hm
      | cons last t =>
        change ['.', '.'] ∈ (if last = ['.', '.'] then comp :: last :: t else t) at hm
        by_cases h3 : last = ['.', '.']
        · exact h (h3 ▸ List.mem_cons_self _ _)
        · rw [if_neg h3] at hm
          exact h (List.mem_cons_of_mem _ hm)
    · rw [if_neg h2] at hm
      rcases List.mem_cons.mp hm with he | ht
      · exact h2 he.symm
      · exact h ht

theorem collapse_abs_no_ddot (ys : List (List Char)) :
    ∀ (acc : List (List Char)), ['.', '.'] ∉ acc →
    ['.', '.'] ∉ collapseRev true acc ys := by
  induction ys with
  | nil => exact fun acc h => h
  | cons comp rest ih =>
    intro acc h
    rw [collapseRev_cons]
    exact ih _ (collapseStep_no_ddot_abs h)

theorem collapse_normal_id {L : List (List Char)}
    (hL : ∀ x ∈ L, x ≠ [] ∧ x ≠ ['.'] ∧ x ≠ ['.', '.']) (f : Bool) :
    ∀ acc, collapseRev f acc L = L.reverse ++ acc := by
  induction L with
  | nil => intro acc; rfl
  | cons comp rest ih =>
    intro acc
    obtain ⟨hne, hdot, hdd⟩ := hL comp (List.mem_cons_self _ _)
    have e : collapseStep f acc comp = comp :: acc := by
      simp [collapseStep, hne, hdot, hdd]
    rw [collapseRev_cons, e, ih (fun x hx => hL x (List.mem_cons_of_mem _ hx)) (comp :: acc)]
    simp

theorem collapse_replicate_nil (f : Bool) (k : Nat) (z : List (List Char)) :
    ∀ acc, collapseRev f acc (List.replicate k [] ++ z) = collapseRev f acc z := by
  induction k with
  | zero => intro acc; rfl
  | succ n ih =>
    intro acc
    rw [List.replicate_succ, List.cons_append, collapseRev_cons]
    have e : collapseStep f acc [] = acc := by simp [collapseStep]
    rw [e]
    exact ih acc

theorem commonPrefixLen_self (L M : List (List Char)) :
    commonPrefixLen L (L ++ M) = L.length := by
  induction L with
  | nil => rfl
  | cons x xs ih =>
    simp only [List.cons_append, commonPrefixLen, if_true, List.length_cons]
    rw [show xs.append M = xs ++ M from rfl, ih]

theorem initSlashes_pos_of_isabs {p : List Char} (h : isabs p = true) :
    0 < initSlashes p := by
  unfold initSlashes
  rw [if_pos (by simpa [isabs] using h)]
  split <;> omega

theorem initSlashes_eq_zero_of_rel {p : List Char} (h : isabs p = false) :
    initSlashes p = 0 := by
  unfold initSlashes
  rw [if_neg (by simpa [isabs] using h)]

theorem isabs_replicate_append {k : Nat} (hk : 0 < k) (z : List Char) :
    isabs (List.replicate k '/' ++ z) = true := by
  cases k with
  | zero => omega
  | succ n =>
    rw [List.replicate_succ, List.cons_append]
    simp [isabs]

theorem replicate_append_ne_nil {k : Nat} (hk : 0 < k) (z : List Char) :
    List.replicate k '/' ++ z ≠ [] := by
  cases k with
  | zero => omega
  | succ n =>
    rw [List.replicate_succ, List.cons_append]
    simp

theorem normpath_of_abs {p : List Char} (hp : isabs p = true) :
    normpath p = List.replicate (initSlashes p) '/' ++
      joinSlash ((collapseRev true [] (splitSlash p)).reverse) := by
  have hpne : p ≠ [] := by
    intro he
    subst he
    simp [isabs] at hp
  have hk : 0 < initSlashes p := initSlashes_pos_of_isabs hp
  have hflag : decide (0 < initSlashes p) = true := decide_eq_true hk
  unfold normpath
  rw [if_neg hpne]
  simp only [hflag]
  rw [if_neg (replicate_append_ne_nil hk _)]

theorem collapse_elem_ne_nil {f : Bool} {ys : List (List Char)} {x : List Char}
    (h : x ∈ collapseRev f [] ys) : x ≠ [] := by
  rcases collapse_mem ys [] x h with h0 | ⟨_, hne, _⟩ | hd
  · simp at h0
  · exact hne
  · subst hd
    simp

theorem joinSlash_eq_nil_iff {L : List (List Char)} (h : ∀ x ∈ L, x ≠ []) :
    joinSlash L = [] ↔ L = [] := by
  constructor
  · intro he
    cases L with
    | nil => rfl
    | cons x r =>
      cases r with
      | nil => exact absurd he (h x (List.mem_cons_self _ _))
      | cons y s =>
        exact absurd he (by show x ++ '/' :: joinSlash (y :: s) ≠ []; simp)
  · intro he
    subst he
    rfl

theorem normpath_of_rel {p : List Char} (hp : isabs p = false) :
    normpath p =
      (if (collapseRev false [] (splitSlash p)).reverse = [] then ['.']
       else joinSlash ((collapseRev false [] (splitSlash p)).reverse)) := by
  by_cases hpe : p = []
  · subst hpe
    have e : collapseRev false [] (splitSlash ([] : List Char)) = [] := rfl
    rw [e]
    rfl
  · have hk : initSlashes p = 0 := initSlashes_eq_zero_of_rel hp
    have hne : ∀ x ∈ (collapseRev false [] (splitSlash p)).reverse, x ≠ [] :=
      fun x hx => collapse_elem_ne_nil (List.mem_reverse.mp hx)
    have hdec : decide (0 < initSlashes p) = false := by rw [hk]; rfl
    unfold normpath
    rw [if_neg hpe]
    simp only [hdec]
    simp only [hk, List.replicate_zero, List.nil_append]
    by_cases hL : (collapseRev false [] (splitSlash p)).reverse = []
    · rw [if_pos hL, if_pos ((joinSlash_eq_nil_iff hne).mpr hL)]
    · rw [if_neg hL, if_neg (fun he => hL ((joinSlash_eq_nil_iff hne).mp he))]

theorem filter_replicate_nil_append (k : Nat) (z : List (List Char)) :
    (List.replicate k ([] : List Char) ++ z).filter (fun c => c ≠ []) =
      z.filter (fun c => c ≠ []) := by
  induction k with
  | zero => rfl
  | succ n ih =>
    rw [List.replicate_succ, List.cons_append]
    simp [ih]

theorem filter_eq_self_of_ne_nil {z : List (List Char)} (h : ∀ x ∈ z, x ≠ []) :
    z.filter (fun c => c ≠ []) = z := by
  induction z with
  | nil => rfl
  | cons x r ih =>
    have hx : x ≠ [] := h x (List.mem_cons_self _ _)
    have hr := ih (fun y hy => h y (List.mem_cons_of_mem _ hy))
    simp [List.filter_cons, hx, hr]
    exact fun a ha => h a (List.mem_cons_of_mem _ ha)

theorem collapse_render (k : Nat) (L : List (List Char))
    (hL : ∀ x ∈ L, x ≠ [] ∧ x ≠ ['.'] ∧ x ≠ ['.', '.'] ∧ '/' ∉ x) :
    collapseRev true [] (splitSlash (List.replicate k '/' ++ joinSlash L)) = L.reverse := by
  rw [splitSlash_replicate, collapse_replicate_nil]
  cases L with
  | nil => rfl
  | cons x r =>
    rw [splitSlash_joinSlash (fun y hy => (hL y hy).2.2.2) (by simp)]
    rw [collapse_normal_id (fun y hy => ⟨(hL y hy).1, (hL y hy).2.1, (hL y hy).2.2.1⟩) true []]
    exact List.append_nil _

theorem filter_split_join (L : List (List Char))
    (hL : ∀ x ∈ L, x ≠ [] ∧ '/' ∉ x) :
    (splitSlash (joinSlash L)).filter (fun c => c ≠ []) = L := by
  cases L with
  | nil => rfl
  | cons x r =>
    rw [splitSlash_joinSlash (fun y hy => (hL y hy).2) (by simp)]
    exact filter_eq_self_of_ne_nil (fun y hy => (hL y hy).1)

theorem filter_splitSlash_normpath (k : Nat) (hk : 0 < k) (L : List (List Char))
    (hL : ∀ x ∈ L, x ≠ [] ∧ x ≠ ['.'] ∧ x ≠ ['.', '.'] ∧ '/' ∉ x) :
    (splitSlash (normpath (List.replicate k '/' ++ joinSlash L))).filter (fun c => c ≠ [])
      = L := by
  rw [normpath_of_abs (isabs_replicate_append hk _), collapse_render k L hL,
    List.reverse_reverse, splitSlash_replicate, filter_replicate_nil_append]
  exact filter_split_join L (fun x hx => ⟨(hL x hx).1, (hL x hx).2.2.2⟩)

theorem normpath_render_stable (k : Nat) (hk : 0 < k) (L : List (List Char))
    (hL : ∀ x ∈ L, x ≠ [] ∧ x ≠ ['.'] ∧ x ≠ ['.', '.'] ∧ '/' ∉ x) :
    normpath (List.replicate k '/' ++ joinSlash L)
      = List.replicate (initSlashes (List.replicate k '/' ++ joinSlash L)) '/' ++
        joinSlash L := by
  rw [normpath_of_abs (isabs_replicate_append hk _), collapse_render k L hL,
    List.reverse_reverse]

theorem isabs_append {a : List Char} (h : isabs a = true) (z : List Char) :
    isabs (a ++ z) = true := by
  cases a with
  | nil => simp [isabs] at h
  | cons c t =>
    simp [isabs, List.take] at h ⊢
    exact h

theorem collapse_join (ws p : List Char) (hws : isabs ws = true) (hp : isabs p = false)
    (hstay : ['.', '.'] ∉ collapseRev false [] (splitSlash p)) :
    collapseRev true [] (splitSlash (joinPath ws p))
      = collapseRev false [] (splitSlash p) ++ collapseRev true [] (splitSlash ws) := by
  have hwne : ws ≠ [] := by
    intro he
    subst he
    simp [isabs] at hws
  have hstack : ∀ W, collapseRev true W (splitSlash p)
      = collapseRev false [] (splitSlash p) ++ W :=
    fun W => collapse_stack (splitSlash p) [] W hstay (by simp)
  unfold joinPath
  rw [if_neg (by simp [hp])]
  by_cases hend : ws = [] ∨ ws.getLast? = some '/'
  · rw [if_pos hend]
    rcases hend with he | hlast
    · exact absurd he hwne
    · obtain ⟨ws0, rfl⟩ : ∃ ws0, ws = ws0 ++ ['/'] := by
        cases hwsr : ws.reverse with
        | nil => exact absurd (by simpa using congrArg List.reverse hwsr) hwne
        | cons c t =>
          have he : ws = t.reverse ++ [c] := by
            have := congrArg List.reverse hwsr
            simpa using this
          have hc : c = '/' := by
            rw [he, List.getLast?_concat] at hlast
            exact (Option.some.injEq _ _).mp hlast
          exact ⟨t.reverse, by rw [he, hc]⟩
      have e : (ws0 ++ ['/']) ++ p = ws0 ++ '/' :: p := by simp
      rw [e, splitSlash_append_slash, collapseRev_append]
      have eW : collapseRev true [] (splitSlash (ws0 ++ ['/']))
          = collapseRev true [] (splitSlash ws0) := by
        rw [show ws0 ++ ['/'] = ws0 ++ '/' :: [] from rfl, splitSlash_append_slash,
          collapseRev_append]
        rfl
      rw [eW]
      exact hstack _
  · rw [if_neg hend]
    rw [splitSlash_append_slash, collapseRev_append]
    exact hstack _

/--
C8: path resolution round-trips with relative reporting — for an absolute
workspace root and a relative path that stays under the root after
normalization, reporting the resolved path relative to the root yields exactly
the normalization of the original relative path.
-/
theorem workspace_relpath_resolve_path (ws p : List Char) (hws : isabs ws = true)
    (hp : isabs p = false) (hstay : staysUnder p = true) :
    workspace_relpath ws (resolve_path ws p) = normpath p := by
  have hddR : ['.', '.'] ∉ collapseRev false [] (splitSlash p) := by
    simpa [staysUnder, relComps] using hstay
  have hddW : ['.', '.'] ∉ collapseRev true [] (splitSlash ws) :=
    collapse_abs_no_ddot _ [] (by simp)
  have hWel : ∀ x ∈ (collapseRev true [] (splitSlash ws)).reverse,
      x ≠ [] ∧ x ≠ ['.'] ∧ x ≠ ['.', '.'] ∧ '/' ∉ x := by
    intro x hx
    have hx2 := List.mem_reverse.mp hx
    rcases collapse_mem _ [] x hx2 with h0 | ⟨hmem, hne, hdot⟩ | hdd
    · simp at h0
    · exact ⟨hne, hdot, fun he => hddW (he ▸ hx2), splitSlash_no_slash ws x hmem⟩
    · exact absurd (hdd ▸ hx2) hddW
  have hRel : ∀ x ∈ (collapseRev false [] (splitSlash p)).reverse,
      x ≠ [] ∧ x ≠ ['.'] ∧ x ≠ ['.', '.'] ∧ '/' ∉ x := by
    intro x hx
    have hx2 := List.mem_reverse.mp hx
    rcases collapse_mem _ [] x hx2 with h0 | ⟨hmem, hne, hdot⟩ | hdd
    · simp at h0
    · exact ⟨hne, hdot, fun he => hddR (he ▸ hx2), splitSlash_no_slash p x hmem⟩
    · exact absurd (hdd ▸ hx2) hddR
  have hWRel : ∀ x ∈ (collapseRev true [] (splitSlash ws)).reverse ++
      (collapseRev false [] (splitSlash p)).reverse,
      x ≠ [] ∧ x ≠ ['.'] ∧ x ≠ ['.', '.'] ∧ '/' ∉ x := by
    intro x hx
    rcases List.mem_append.mp hx with h | h
    · exact hWel x h
    · exact hRel x h
  have habsj : isabs (joinPath ws p) = true := by
    unfold joinPath
    rw [if_neg (by simp [hp])]
    by_cases hend : ws = [] ∨ ws.getLast? = some '/'
    · rw [if_pos hend]
      exact isabs_append hws p
    · rw [if_neg hend]
      exact isabs_append hws _
  have hres : resolve_path ws p = normpath (joinPath ws p) := by
    unfold resolve_path
    rw [if_neg (by simp [hp])]
  have hrender : normpath (joinPath ws p)
      = List.replicate (initSlashes (joinPath ws p)) '/' ++
        joinSlash ((collapseRev true [] (splitSlash ws)).reverse ++
          (collapseRev false [] (splitSlash p)).reverse) := by
    rw [normpath_of_abs habsj, collapse_join ws p hws hp hddR, List.reverse_append]
  have hpl : (splitSlash (normpath (normpath (normpath (joinPath ws p))))).filter
        (fun c => c ≠ [])
      = (collapseRev true [] (splitSlash ws)).reverse ++
        (collapseRev false [] (splitSlash p)).reverse := by
    rw [hrender, normpath_render_stable _ (initSlashes_pos_of_isabs habsj) _ hWRel]
    exact filter_splitSlash_normpath _
      (initSlashes_pos_of_isabs
        (isabs_replicate_append (initSlashes_pos_of_isabs habsj) _)) _ hWRel
  have hsl : (splitSlash (normpath (normpath ws))).filter (fun c => c ≠ [])
      = (collapseRev true [] (splitSlash ws)).reverse := by
    rw [normpath_of_abs hws]
    exact filter_splitSlash_normpath _ (initSlashes_pos_of_isabs hws) _ hWel
  rw [hres]
  unfold workspace_relpath relpath
  simp only [hpl, hsl, commonPrefixLen_self, Nat.sub_self, List.replicate_zero,
    List.nil_append, List.drop_left]
  rw [normpath_of_rel hp]

/-- Witness for C8: the spec's own example, with the round trip landing on
exactly the relative path. -/
theorem workspace_relpath_resolve_path_witness :
    workspace_relpath (chars ("/github/workspace"))
        (resolve_path (chars ("/github/workspace")) (chars ("dist/x.tgz")))
      = normpath (chars ("dist/x.tgz")) ∧
    normpath (chars ("dist/x.tgz")) = chars ("dist/x.tgz") :=
  ⟨workspace_relpath_resolve_path _ _ (by decide) (by decide) (by decide), by decide⟩

/-!
## Artifact extraction (claim C3)
-/

theorem pickNewest_mem {l : List (List Char × Nat)} {e : List Char × Nat}
    (h : pickNewest l = some e) : e ∈ l := by
  induction l with
  | nil => simp [pickNewest] at h
  | cons a t ih =>
    simp only [pickNewest] at h
    cases hm : pickNewest t with
    | none =>
      rw [hm] at h
      cases h
      exact List.mem_cons_self _ _
    | some m =>
      rw [hm] at h
      change (if m.2 ≤ a.2 then some a else some m) = some e at h
      by_cases hle : m.2 ≤ a.2
      · rw [if_pos hle] at h
        cases h
        exact List.mem_cons_self _ _
      · rw [if_neg hle] at h
        cases h
        exact List.mem_cons_of_mem _ (ih hm)

theorem isTgzName_ne_nil {n : List Char} (h : isTgzName n = true) : n ≠ [] := by
  intro he
  subst he
  simp [isTgzName, chars, List.isSuffixOf] at h

theorem joinPath_ne_nil {d n : List Char} (hn : n ≠ []) : joinPath d n ≠ [] := by
  unfold joinPath
  by_cases h1 : isabs n
  · rw [if_pos h1]
    exact hn
  · rw [if_neg h1]
    by_cases h2 : d = [] ∨ d.getLast? = some '/'
    · rw [if_pos h2]
      simp [hn]
    · rw [if_neg h2]
      simp

/--
C3 (amended): artifact-path extraction searches the tool output
case-insensitively and takes the path from the FIRST occurrence of the
"saved it to: <path>" pattern, trimmed; only if there is no match does it
fall back to the destination's archive files, picking the one with the most
recent modification time (first in directory order among ties); if neither
strategy yields a candidate (including a match whose path trims to nothing),
the run fails with an error that includes the raw tool output.
-/
theorem extract_artifact_path_spec (out dest : List Char)
    (entries : List (List Char × Nat)) :
    (∀ g, findSaved out = some g → pyStrip g ≠ [] →
      extract_artifact_path out dest entries = Except.ok (pyStrip g)) ∧
    (∀ g, findSaved out = some g → pyStrip g = [] →
      extract_artifact_path out dest entries = Except.error (artifactErr out)) ∧
    (∀ e, findSaved out = none →
      pickNewest (entries.filter (fun e => isTgzName e.1)) = some e →
      extract_artifact_path out dest entries = Except.ok (joinPath dest e.1)) ∧
    (findSaved out = none →
      pickNewest (entries.filter (fun e => isTgzName e.1)) = none →
      extract_artifact_path out dest entries = Except.error (artifactErr out)) := by
  refine ⟨?_, ?_, ?_, ?_⟩
  · intro g hg hne
    unfold extract_artifact_path
    rw [hg]
    simp only []
    rw [if_neg hne]
  · intro g hg he
    unfold extract_artifact_path
    rw [hg]
    simp only []
    rw [if_pos he]
  · intro e hn hp
    have hmem := pickNewest_mem hp
    have htgz : isTgzName e.1 = true := by
      have := List.of_mem_filter hmem
      simpa using this
    have hne : joinPath dest e.1 ≠ [] := joinPath_ne_nil (isTgzName_ne_nil htgz)
    have e1 : extract_artifact_path out dest entries
        = if joinPath dest e.1 = [] then Except.error (artifactErr out)
          else Except.ok (joinPath dest e.1) := by
      unfold extract_artifact_path
      rw [hn]
      simp only [newestTgz, hp, Option.map_some']
    rw [e1, if_neg hne]
  · intro hn hp
    unfold extract_artifact_path
    rw [hn]
    simp only [newestTgz, hp]
    rfl

/--
C3 counterexample: when the tool output contains two "saved it to:" lines,
the code returns the path from the first one, not the last as the claim
states.
-/
theorem extract_artifact_path_counterexample :
    extract_artifact_path (chars ("saved it to: /d/a.tgz\nsaved it to: /d/b.tgz\n"))
        (chars ("/d")) []
      = Except.ok (chars ("/d/a.tgz")) ∧
    chars ("/d/a.tgz") ≠ chars ("/d/b.tgz") :=
  ⟨rfl, by decide⟩

/-- Witness for the amended C3: all four branches at concrete inputs. -/
theorem extract_artifact_path_spec_witness :
    extract_artifact_path (chars ("Successfully packaged chart and saved it to: /d/a.tgz\n"))
        (chars ("/d")) [] = Except.ok (chars ("/d/a.tgz")) ∧
    extract_artifact_path (chars ("saved it to: \n")) (chars ("/d")) []
      = Except.error (artifactErr (chars ("saved it to: \n"))) ∧
    extract_artifact_path (chars ("no path in output")) (chars ("/d"))
        [(chars ("a.tgz"), 5), (chars ("b.tgz"), 9), (chars ("c.txt"), 99)]
      = Except.ok (joinPath (chars ("/d")) (chars ("b.tgz"))) ∧
    extract_artifact_path (chars ("no path in output")) (chars ("/d")) []
      = Except.error (artifactErr (chars ("no path in output"))) := by
  refine ⟨?_, ?_, ?_, ?_⟩
  · exact (extract_artifact_path_spec _ _ _).1 (chars ("/d/a.tgz")) rfl (by decide)
  · exact (extract_artifact_path_spec _ _ _).2.1 [' '] rfl (by decide)
  · exact (extract_artifact_path_spec _ _ _).2.2.1 (chars ("b.tgz"), 9) rfl rfl
  · exact (extract_artifact_path_spec _ _ _).2.2.2 rfl rfl

/-!
## Filesystem claims (C2, C4, C10)
-/

theorem mergeSpan_ok {α : Type} (parse : α → Option Value) (serialize : Value → α)
    (fs : FS α) (chartPath : List String) (valuesFiles : List (List String))
    (tmpRoot : List String) (hne : valuesFiles ≠ []) (v : Value)
    (hv : mergedValues parse fs chartPath valuesFiles (Value.map []) = Except.ok v) :
    mergeSpan parse serialize fs chartPath valuesFiles tmpRoot
      = Except.ok
          (fsWrite (tmpRoot ++ [chartBase chartPath] ++ ["values.yaml"]) (serialize v)
            (fsCopytree chartPath (tmpRoot ++ [chartBase chartPath])
              (fsMakedirs tmpRoot fs)),
           tmpRoot ++ [chartBase chartPath]) := by
  unfold mergeSpan
  rw [if_neg hne, hv]

/--
C2: when values-file merging runs, nothing under the original chart directory
is written — every file under it is unchanged by the merge span and by the
rest of the run (whose only filesystem actor is the external tool,
`helmEffect`), while packaging is pointed at the fresh temporary copy whose
`values.yaml` is exactly the serialized merged document. The `mkdtemp`
freshness of the temporary root is the two disjointness hypotheses.
-/
theorem mergeSpan_chart_unchanged {α : Type} (parse : α → Option Value)
    (serialize : Value → α) (fs : FS α) (chartPath : List String)
    (valuesFiles : List (List String)) (tmpRoot : List String)
    (helmEffect : FS α → FS α)
    (hne : valuesFiles ≠ [])
    (hd1 : chartPath.isPrefixOf tmpRoot = false)
    (hd2 : tmpRoot.isPrefixOf chartPath = false)
    (hE : ∀ g q, chartPath.isPrefixOf q = true → (helmEffect g).files q = g.files q) :
    (∀ q, chartPath.isPrefixOf q = true →
      (mergeSpanFS parse serialize fs chartPath valuesFiles tmpRoot).files q
        = fs.files q) ∧
    (∀ q, chartPath.isPrefixOf q = true →
      (mainFinalFS parse serialize fs chartPath valuesFiles tmpRoot helmEffect).files q
        = fs.files q) ∧
    (∀ v, mergedValues parse fs chartPath valuesFiles (Value.map []) = Except.ok v →
      mergeSpanChart parse serialize fs chartPath valuesFiles tmpRoot
          = tmpRoot ++ [chartBase chartPath] ∧
      mergeSpanChart parse serialize fs chartPath valuesFiles tmpRoot ≠ chartPath ∧
      (mergeSpanFS parse serialize fs chartPath valuesFiles tmpRoot).files
          (tmpRoot ++ [chartBase chartPath] ++ ["values.yaml"])
        = some (serialize v)) := by
  have hnotTmp : ∀ q, chartPath.isPrefixOf q = true →
      (tmpRoot ++ [chartBase chartPath]).isPrefixOf q = false := by
    intro q hq
    by_contra hcon
    have htc : (tmpRoot ++ [chartBase chartPath]).isPrefixOf q = true := by
      cases h : (tmpRoot ++ [chartBase chartPath]).isPrefixOf q
      · exact absurd h hcon
      · rfl
    have h1 : tmpRoot <+: q :=
      (List.prefix_append tmpRoot [chartBase chartPath]).trans
        (List.isPrefixOf_iff_prefix.mp htc)
    have h2 : chartPath <+: q := List.isPrefixOf_iff_prefix.mp hq
    rcases List.prefix_or_prefix_of_prefix h2 h1 with h3 | h3
    · rw [List.isPrefixOf_iff_prefix.mpr h3] at hd1
      cases hd1
    · rw [List.isPrefixOf_iff_prefix.mpr h3] at hd2
      cases hd2
  have hnotVal : ∀ q, chartPath.isPrefixOf q = true →
      q ≠ tmpRoot ++ [chartBase chartPath] ++ ["values.yaml"] := by
    intro q hq he
    have h1 : tmpRoot <+: q := by
      rw [he, List.append_assoc]
      exact List.prefix_append _ _
    have h2 : chartPath <+: q := List.isPrefixOf_iff_prefix.mp hq
    rcases List.prefix_or_prefix_of_prefix h2 h1 with h3 | h3
    · rw [List.isPrefixOf_iff_prefix.mpr h3] at hd1
      cases hd1
    · rw [List.isPrefixOf_iff_prefix.mpr h3] at hd2
      cases hd2
  have hframe : ∀ q, chartPath.isPrefixOf q = true →
      (mergeSpanFS parse serialize fs chartPath valuesFiles tmpRoot).files q
        = fs.files q := by
    intro q hq
    unfold mergeSpanFS
    cases hm : mergedValues parse fs chartPath valuesFiles (Value.map []) with
    | error e =>
      unfold mergeSpan
      rw [if_neg hne, hm]
    | ok v =>
      rw [mergeSpan_ok parse serialize fs chartPath valuesFiles tmpRoot hne v hm]
      show (fsWrite _ _ _).files q = fs.files q
      unfold fsWrite fsCopytree fsMakedirs
      simp only []
      rw [if_neg (hnotVal q hq), if_neg (by rw [hnotTmp q hq]; exact Bool.false_ne_true)]
  refine ⟨hframe, ?_, ?_⟩
  · intro q hq
    unfold mainFinalFS
    cases hm : mergedValues parse fs chartPath valuesFiles (Value.map []) with
    | error e =>
      unfold mergeSpan
      rw [if_neg hne, hm]
    | ok v =>
      rw [mergeSpan_ok parse serialize fs chartPath valuesFiles tmpRoot hne v hm]
      have h1 := hE (fsWrite (tmpRoot ++ [chartBase chartPath] ++ ["values.yaml"])
        (serialize v) (fsCopytree chartPath (tmpRoot ++ [chartBase chartPath])
          (fsMakedirs tmpRoot fs))) q hq
      rw [h1]
      have h2 := hframe q hq
      unfold mergeSpanFS at h2
      rw [mergeSpan_ok parse serialize fs chartPath valuesFiles tmpRoot hne v hm] at h2
      exact h2
  · intro v hv
    have hok := mergeSpan_ok parse serialize fs chartPath valuesFiles tmpRoot hne v hv
    have hchart : mergeSpanChart parse serialize fs chartPath valuesFiles tmpRoot
        = tmpRoot ++ [chartBase chartPath] := by
      unfold mergeSpanChart
      rw [hok]
    refine ⟨hchart, ?_, ?_⟩
    · rw [hchart]
      intro he
      have h1 : tmpRoot <+: chartPath := by
        rw [← he]
        exact List.prefix_append _ _
      rw [List.isPrefixOf_iff_prefix.mpr h1] at hd2
      cases hd2
    · unfold mergeSpanFS
      rw [hok]
      show (fsWrite _ _ _).files _ = _
      unfold fsWrite
      simp

/-- Witness for C2: a one-chart, one-values-file run with the external tool
modelled as the identity; the original values file is untouched and the copy
holds the serialized merge. -/
theorem mergeSpan_chart_unchanged_witness :
    (mergeSpanFS (fun _ => some (Value.map [("a", Value.scalar "1")]))
        (fun _ => "MERGED")
        (FS.mk (fun q => if q = ["chart", "values.yaml"] then some "doc" else none)
          (fun q => q.isPrefixOf ["chart"]))
        ["chart"] [["values.yaml"]] [".tmp-x"]).files ["chart", "values.yaml"]
      = some "doc" ∧
    (mergeSpanFS (fun _ => some (Value.map [("a", Value.scalar "1")]))
        (fun _ => "MERGED")
        (FS.mk (fun q => if q = ["chart", "values.yaml"] then some "doc" else none)
          (fun q => q.isPrefixOf ["chart"]))
        ["chart"] [["values.yaml"]] [".tmp-x"]).files [".tmp-x", "chart", "values.yaml"]
      = some "MERGED" := by
  have h := mergeSpan_chart_unchanged (fun _ => some (Value.map [("a", Value.scalar "1")]))
    (fun _ => "MERGED")
    (FS.mk (fun q => if q = ["chart", "values.yaml"] then some "doc" else none)
      (fun q => q.isPrefixOf ["chart"]))
    ["chart"] [["values.yaml"]] [".tmp-x"] id
    (by decide) (by decide) (by decide) (fun g q _ => rfl)
  constructor
  · exact (h.1 ["chart", "values.yaml"] (by decide)).trans rfl
  · exact (h.2.2 (Value.map [("a", Value.scalar "1")])
      (by simp [mergedValues, load_yaml_file, deep_merge_values, mergeList, updateKey])).2.2

/--
C4 (amended): the temporary merge workspace is never removed by the run — the
program performs no deletion after creating it, so on an ordinary exit
(packaging succeeded, the external tool left the temporary subtree alone) the
workspace and its merged values file survive the run.
-/
theorem temp_workspace_survives {α : Type} (parse : α → Option Value)
    (serialize : Value → α) (fs : FS α) (chartPath : List String)
    (valuesFiles : List (List String)) (tmpRoot : List String)
    (helmEffect : FS α → FS α)
    (hne : valuesFiles ≠ [])
    (hE : ∀ g q, tmpRoot.isPrefixOf q = true → (helmEffect g).files q = g.files q)
    (v : Value)
    (hv : mergedValues parse fs chartPath valuesFiles (Value.map []) = Except.ok v) :
    (mainFinalFS parse serialize fs chartPath valuesFiles tmpRoot helmEffect).files
        (tmpRoot ++ [chartBase chartPath] ++ ["values.yaml"]) = some (serialize v) := by
  unfold mainFinalFS
  rw [mergeSpan_ok parse serialize fs chartPath valuesFiles tmpRoot hne v hv]
  rw [hE _ _ (List.isPrefixOf_iff_prefix.mpr
    (by rw [List.append_assoc]; exact List.prefix_append _ _))]
  show (fsWrite _ _ _).files _ = _
  unfold fsWrite
  simp

/--
C4 counterexample: a complete, successful run (values merged, chart copied,
external tool wrote its archive into the destination) after which the
temporary workspace still holds the merged values file — the run has no
removal of the workspace on any exit path, so it survives an ordinary exit,
contradicting the claimed scoped cleanup.
-/
theorem temp_workspace_not_removed_counterexample :
    (mainFinalFS (fun _ => some (Value.map [("a", Value.scalar "1")]))
      (fun _ => "MERGED")
      (FS.mk (fun q => if q = ["chart", "values.yaml"] then some "doc" else none)
        (fun q => q.isPrefixOf ["chart"]))
      ["chart"] [["values.yaml"]] [".dist-temporary-x"]
      (fsWrite ["dist", "c-1.0.0.tgz"] "TGZ")).files
        [".dist-temporary-x", "chart", "values.yaml"] = some "MERGED" := by
  simp [mainFinalFS, mergeSpan, mergedValues, load_yaml_file, deep_merge_values,
    mergeList, updateKey, fsWrite, fsCopytree, fsMakedirs, chartBase]

/-- Witness for the amended C4: the survival theorem applied to the concrete
run of the counterexample scenario with a workspace-preserving tool effect. -/
theorem temp_workspace_survives_witness :
    (mainFinalFS (fun _ => some (Value.map [("a", Value.scalar "1")]))
      (fun _ => "MERGED")
      (FS.mk (fun q => if q = ["chart", "values.yaml"] then some "doc" else none)
        (fun q => q.isPrefixOf ["chart"]))
      ["chart"] [["values.yaml"]] [".tmp-y"] id).files
        [".tmp-y", "chart", "values.yaml"] = some "MERGED" := by
  exact temp_workspace_survives _ _ _ _ _ _ id (by decide) (fun g q _ => rfl)
    (Value.map [("a", Value.scalar "1")])
    (by simp [mergedValues, load_yaml_file, deep_merge_values, mergeList, updateKey])

/--
C10: when the chart manifest is present, the pre-install segment of `main`
(which runs before `install_helm` and before any tool invocation) succeeds and
creates the resolved destination directory with all missing parents, leaving
every existing file and directory in place.
-/
theorem setupSpan_spec {α : Type} (fs : FS α) (chartPath destination : List String)
    (c : α) (hchart : fs.files (chartPath ++ ["Chart.yaml"]) = some c) :
    setupSpan fs chartPath destination = Except.ok (fsMakedirs destination fs) ∧
    (fsMakedirs destination fs).dirs destination = true ∧
    (∀ q, q.isPrefixOf destination = true → (fsMakedirs destination fs).dirs q = true) ∧
    (∀ q, fs.dirs q = true → (fsMakedirs destination fs).dirs q = true) ∧
    (∀ q, (fsMakedirs destination fs).files q = fs.files q) := by
  refine ⟨?_, ?_, ?_, ?_, fun q => rfl⟩
  · unfold setupSpan
    rw [hchart]
  · show (if destination.isPrefixOf destination then true else fs.dirs destination) = true
    rw [if_pos (List.isPrefixOf_iff_prefix.mpr (List.prefix_refl _))]
  · intro q hq
    show (if q.isPrefixOf destination then true else fs.dirs q) = true
    rw [if_pos hq]
  · intro q hq
    show (if q.isPrefixOf destination then true else fs.dirs q) = true
    by_cases h : q.isPrefixOf destination
    · rw [if_pos h]
    · rw [if_neg h]
      exact hq

/-- Witness for C10: a run with an absent destination directory; it exists
(with its parent) afterwards and the chart files are untouched. -/
theorem setupSpan_spec_witness :
    setupSpan
        (FS.mk (fun q => if q = ["chart", "Chart.yaml"] then some "manifest" else none)
          (fun q => q.isPrefixOf ["chart"]))
        ["chart"] ["out", "dist"]
      = Except.ok (fsMakedirs ["out", "dist"]
          (FS.mk (fun q => if q = ["chart", "Chart.yaml"] then some "manifest" else none)
            (fun q => q.isPrefixOf ["chart"]))) ∧
    (fsMakedirs ["out", "dist"]
        (FS.mk (fun q => if q = ["chart", "Chart.yaml"] then some "manifest" else none)
          (fun q => q.isPrefixOf ["chart"]))).dirs ["out", "dist"] = true ∧
    (fsMakedirs ["out", "dist"]
        (FS.mk (fun q => if q = ["chart", "Chart.yaml"] then some "manifest" else none)
          (fun q => q.isPrefixOf ["chart"]))).dirs ["out"] = true := by
  have h := setupSpan_spec
    (FS.mk (fun q => if q = ["chart", "Chart.yaml"] then some "manifest" else none)
      (fun q => q.isPrefixOf ["chart"]))
    ["chart"] ["out", "dist"] "manifest" rfl
  exact ⟨h.1, h.2.1, h.2.2.1 ["out"] (by decide)⟩
